import Mathlib

/-!
Verification development for `scripts/folder-hierarchy-generator.py`.

The script has two parts:

* `get_folder_hierarchy(path, ignore_folders=None)` recursively builds a
  nested dictionary describing the sub-directory structure under `path`,
  skipping hidden entries (names starting with a dot), non-directories,
  and names listed in `ignore_folders`; a failed directory listing is
  captured and encoded as the sentinel dictionary `{"error": message}`.
* `main()` parses CLI arguments, validates the root path (existence, then
  is-directory), wraps the hierarchy as `{basename(root): hierarchy}` and
  serializes it with `json.dump(..., indent=2, ensure_ascii=False)`.

The filesystem is modelled as a finite tree.  Dictionaries are modelled
as association lists in insertion order, mirroring Python's
order-preserving `dict`.
-/

/-- A filesystem node as the traversal observes it: a non-directory entry,
a directory whose listing succeeds with named children (in listing order),
a directory whose listing raises `PermissionError`, or a directory whose
listing raises some other exception with message `msg`. -/
inductive FS where
  | file : FS
  | dirOk : List (String × FS) → FS
  | dirPermDenied : FS
  | dirErr : String → FS

/-- A value the Python script stores in its result dictionaries: a nested
dictionary, or the string stored under the `"error"` key of a sentinel. -/
inductive JValue where
  | str : String → JValue
  | obj : List (String × JValue) → JValue

/-- `pathlib.Path.is_dir()` on a filesystem node.  A directory whose
listing later fails still reports as a directory. -/
def isDir : FS → Bool
  | FS.file => false
  | FS.dirOk _ => true
  | FS.dirPermDenied => true
  | FS.dirErr _ => true

/-- `name.startswith('.')` for the one-character prefix the script tests:
true exactly when the first character of the string is a dot. -/
def startsWithDot (s : String) : Bool :=
  match s.data with
  | [] => false
  | c :: _ => c = '.'

mutual
/-- `get_folder_hierarchy` with the `ignore_folders` argument already
resolved to a list (the Python body replaces `None` by `[]` before use).
Listing a non-directory raises `NotADirectoryError`, landing in the
generic `except Exception` arm; we model its message as a fixed string. -/
def build (ig : List String) : FS → JValue
  | FS.file => JValue.obj [("error", JValue.str "Not a directory")]
  | FS.dirPermDenied => JValue.obj [("error", JValue.str "Permission denied")]
  | FS.dirErr msg => JValue.obj [("error", JValue.str msg)]
  | FS.dirOk entries => JValue.obj (buildChildren ig entries)

/-- The list comprehension plus `for` loop of `get_folder_hierarchy`: keep
an entry when its name does not start with a dot, it is a directory, and
its name is not in `ignore_folders`; recurse on each kept entry. -/
def buildChildren (ig : List String) : List (String × FS) → List (String × JValue)
  | [] => []
  | (n, c) :: rest =>
      if !startsWithDot n && isDir c && !ig.contains n then
        (n, build ig c) :: buildChildren ig rest
      else
        buildChildren ig rest
end

/-- `get_folder_hierarchy(path, ignore_folders)`: the Python default
`ignore_folders=None` is modelled by an explicit `Option`; the body turns
`None` into the empty list. -/
def get_folder_hierarchy (path : FS) (ignore_folders : Option (List String)) : JValue :=
  build (ignore_folders.getD []) path

/-- The inputs `main()` reads: the parsed CLI arguments, what
`os.path.exists` / `os.path.isdir` answer for the root path, the base name
`os.path.basename(os.path.abspath(start_path))`, and the filesystem tree
rooted at the path. -/
structure DriverEnv where
  start_path : String
  output_file : String
  ignore_folders : List String
  path_exists : Bool
  path_is_dir : Bool
  basename : String
  fs : FS

/-- What one run of `main()` observably does: the messages printed to
standard output, in order, and the document written to the output file
(`none` when no file is created). -/
structure DriverResult where
  messages : List String
  written : Option (String × JValue)

/-- The body of `main()` after argument parsing (named `mainRun` because Lean reserves `main`): validate existence, then
is-directory, each failure printing a message and returning without
writing; on success print the progress messages, build the hierarchy,
wrap it under the base name and write the document. -/
def mainRun (env : DriverEnv) : DriverResult :=
  if !env.path_exists then
    { messages := ["Error: Path '" ++ env.start_path ++ "' does not exist."]
      written := none }
  else if !env.path_is_dir then
    { messages := ["Error: Path '" ++ env.start_path ++ "' is not a directory."]
      written := none }
  else
    let buildingMsg := "Building folder hierarchy from '" ++ env.start_path ++ "'..."
    let ignoreMsgs :=
      if env.ignore_folders.isEmpty then []
      else ["Ignoring folders: " ++ String.intercalate ", " env.ignore_folders]
    let doc := JValue.obj
      [(env.basename, get_folder_hierarchy env.fs (some env.ignore_folders))]
    { messages := [buildingMsg] ++ ignoreMsgs ++
        ["Folder hierarchy saved to '" ++ env.output_file ++ "'"]
      written := some (env.output_file, doc) }

/-- The filter of the list comprehension, as a predicate on one listed
entry: visible (no leading dot), a directory, and not ignored. -/
def keepEntry (ig : List String) (e : String × FS) : Bool :=
  !startsWithDot e.1 && isDir e.2 && !ig.contains e.1

mutual
/-- Every key of every nested object of a value, with multiplicity, in
document order.  The `"error"` key of a sentinel object is included: it
is a key of the produced document like any other. -/
def allKeys : JValue → List String
  | JValue.str _ => []
  | JValue.obj entries => allKeysEntries entries

/-- The keys contributed by an object's association list. -/
def allKeysEntries : List (String × JValue) → List String
  | [] => []
  | (k, v) :: rest => k :: (allKeys v ++ allKeysEntries rest)
end

mutual
/-- Whether the filesystem tree contains, at any depth, a child entry
named `k` that is a directory. -/
def hasDirNamed (k : String) : FS → Bool
  | FS.dirOk entries => hasDirNamedIn k entries
  | _ => false

/-- `hasDirNamed` over a directory's listed children. -/
def hasDirNamedIn (k : String) : List (String × FS) → Bool
  | [] => false
  | (n, c) :: rest => (n == k && isDir c) || hasDirNamed k c || hasDirNamedIn k rest
end

/-- A root whose child `logs` is a directory that raises
`PermissionError` on listing. -/
def permTree : FS := FS.dirOk [("logs", FS.dirPermDenied)]

/-- A driver environment whose root path does not exist. -/
def missingEnv : DriverEnv :=
  { start_path := "no_such_path"
    output_file := "folder_hierarchy.json"
    ignore_folders := []
    path_exists := false
    path_is_dir := false
    basename := "no_such_path"
    fs := FS.dirOk []
    }

/-- A driver environment whose root path exists but is a file. -/
def fileEnv : DriverEnv :=
  { start_path := "README.md"
    output_file := "folder_hierarchy.json"
    ignore_folders := []
    path_exists := true
    path_is_dir := false
    basename := "README.md"
    fs := FS.file
    }

/-- The concrete tree of the spec's scenario 7: root `project` holds
`src` (holding `utils` and hidden `.cache`), `node_modules`, and the
file `README.md`. -/
def projectTree : FS :=
  FS.dirOk
    [("src", FS.dirOk [("utils", FS.dirOk []), (".cache", FS.dirOk [])]),
     ("node_modules", FS.dirOk []),
     ("README.md", FS.file)]

/-- The driver environment of the spec's scenario 7. -/
def projectEnv : DriverEnv :=
  { start_path := "project"
    output_file := "folder_hierarchy.json"
    ignore_folders := ["node_modules"]
    path_exists := true
    path_is_dir := true
    basename := "project"
    fs := projectTree }

/-! ### The serialized document

`main` writes the wrapped hierarchy with
`json.dump(folder_hierarchy, f, indent=2, ensure_ascii=False)`.  The
serializer below reproduces that format exactly: 2-space indentation,
`", "`-free separators (`",\n"` between members, `": "` after a key),
string escaping of `"`, `\` and control characters only (everything
else, non-ASCII included, is emitted literally).  The parser models
`json.load` on the grammar the script can produce (objects and strings),
so the round-trip property C9 is about these two functions. -/

/-- The left brace character. -/
def lbrace : Char := '\x7b'

/-- The right brace character. -/
def rbrace : Char := '\x7d'

/-- The double-quote character. -/
def quoteChar : Char := '\x22'

/-- The backslash character. -/
def bslash : Char := '\\'

/-- The lowercase hexadecimal digit for `n < 16`, as CPython's
`'\u%04x' % n` produces it. -/
def hexDigitChar (n : Nat) : Char :=
  if n < 10 then Char.ofNat (48 + n) else Char.ofNat (87 + n)

/-- The value of a hexadecimal digit character, upper or lower case
(what `json.load` accepts after `\u`). -/
def hexDigitVal (c : Char) : Option Nat :=
  if 48 ≤ c.toNat ∧ c.toNat ≤ 57 then some (c.toNat - 48)
  else if 97 ≤ c.toNat ∧ c.toNat ≤ 102 then some (c.toNat - 87)
  else if 65 ≤ c.toNat ∧ c.toNat ≤ 70 then some (c.toNat - 55)
  else none

/-- One character of a string, JSON-escaped as CPython's
`json.encoder` does with `ensure_ascii=False`: `"` and `\` and the five
named control characters get two-character escapes, the remaining
control characters get `\u00xx`, and every other character — non-ASCII
included — is written literally. -/
def escChar (c : Char) : List Char :=
  if c = quoteChar then [bslash, quoteChar]
  else if c = bslash then [bslash, bslash]
  else if c = '\x08' then [bslash, 'b']
  else if c = '\t' then [bslash, 't']
  else if c = '\n' then [bslash, 'n']
  else if c = '\x0c' then [bslash, 'f']
  else if c = '\r' then [bslash, 'r']
  else if c.toNat < 32 then
    [bslash, 'u', '0', '0', hexDigitChar (c.toNat / 16), hexDigitChar (c.toNat % 16)]
  else [c]

/-- `escChar` over a whole string body. -/
def escString : List Char → List Char
  | [] => []
  | c :: rest => escChar c ++ escString rest

/-- A serialized JSON string: quote, escaped body, quote. -/
def serStr (s : String) : List Char :=
  quoteChar :: (escString s.data ++ [quoteChar])

mutual
/-- `json.dump(v, f, indent=2, ensure_ascii=False)` at current
indentation width `w`: strings are quoted and escaped; an empty object
is the two braces; a non-empty object opens a brace, a newline, then its
members. -/
def serValue (w : Nat) : JValue → List Char
  | JValue.str s => serStr s
  | JValue.obj [] => [lbrace, rbrace]
  | JValue.obj (e :: es) => lbrace :: '\n' :: serMembers w (e :: es)

/-- The members of a non-empty object at enclosing width `w`: each on
its own line indented `w + 2`, `": "` after the key, `",\n"` between
members, and after the last a newline, the enclosing indentation and the
closing brace. -/
def serMembers (w : Nat) : List (String × JValue) → List Char
  | [] => '\n' :: (List.replicate w ' ' ++ [rbrace])
  | [(k, v)] =>
      (List.replicate (w + 2) ' ' ++ (serStr k ++ ':' :: ' ' :: serValue (w + 2) v))
        ++ ('\n' :: (List.replicate w ' ' ++ [rbrace]))
  | (k, v) :: rest =>
      (List.replicate (w + 2) ' ' ++ (serStr k ++ ':' :: ' ' :: serValue (w + 2) v))
        ++ (',' :: '\n' :: serMembers w rest)
end

/-- The full document `json.dump` writes for `v`. -/
def serializeDoc (v : JValue) : String :=
  String.mk (serValue 0 v)

/-- JSON insignificant whitespace. -/
def isWsChar (c : Char) : Bool :=
  c = ' ' || c = '\n' || c = '\t' || c = '\r'

/-- Drop leading insignificant whitespace. -/
def skipWs : List Char → List Char
  | [] => []
  | c :: rest => if isWsChar c then skipWs rest else c :: rest

/-- Modelled from the spec: `json.load`'s handling of two-character
escapes (the `json` module is standard-library code, not part of this
repository). -/
def unescChar (e : Char) : Option Char :=
  if e = quoteChar then some quoteChar
  else if e = bslash then some bslash
  else if e = '/' then some '/'
  else if e = 'b' then some '\x08'
  else if e = 'f' then some '\x0c'
  else if e = 'n' then some '\n'
  else if e = 'r' then some '\r'
  else if e = 't' then some '\t'
  else none

/-- Modelled from the spec: `json.load`'s string scanner after an
opening quote — literal characters up to the closing quote, `\uXXXX`
escapes, and the two-character escapes. -/
def parseStrBody : List Char → Option (List Char × List Char)
  | [] => none
  | c :: rest =>
      if c = quoteChar then some ([], rest)
      else if c = bslash then
        match rest with
        | [] => none
        | e :: rest2 =>
            if e = 'u' then
              match rest2 with
              | h1 :: h2 :: h3 :: h4 :: rest3 =>
                  match hexDigitVal h1, hexDigitVal h2, hexDigitVal h3, hexDigitVal h4 with
                  | some v1, some v2, some v3, some v4 =>
                      match parseStrBody rest3 with
                      | some (s, r) =>
                          some (Char.ofNat (((v1 * 16 + v2) * 16 + v3) * 16 + v4) :: s, r)
                      | none => none
                  | _, _, _, _ => none
              | _ => none
            else
              match unescChar e with
              | some ch =>
                  match parseStrBody rest2 with
                  | some (s, r) => some (ch :: s, r)
                  | none => none
              | none => none
      else
        match parseStrBody rest with
        | some (s, r) => some (c :: s, r)
        | none => none

mutual
/-- Modelled from the spec: `json.load` restricted to the grammar the
script emits — objects and strings — with a fuel argument for totality. -/
def parseVal : Nat → List Char → Option (JValue × List Char)
  | 0, _ => none
  | fuel + 1, s =>
      match skipWs s with
      | [] => none
      | c :: rest =>
          if c = quoteChar then
            match parseStrBody rest with
            | some (cs, r) => some (JValue.str (String.mk cs), r)
            | none => none
          else if c = lbrace then
            match skipWs rest with
            | [] => none
            | d :: rest2 =>
                if d = rbrace then some (JValue.obj [], rest2)
                else
                  match parseMembers fuel (d :: rest2) with
                  | some (ms, r) => some (JValue.obj ms, r)
                  | none => none
          else none

/-- Modelled from the spec: the member loop of `json.load`'s object
scanner — `"key": value` pairs separated by commas, closed by a brace. -/
def parseMembers : Nat → List Char → Option (List (String × JValue) × List Char)
  | 0, _ => none
  | fuel + 1, s =>
      match skipWs s with
      | [] => none
      | c :: rest =>
          if c = quoteChar then
            match parseStrBody rest with
            | some (kcs, r1) =>
                match skipWs r1 with
                | [] => none
                | d :: r2 =>
                    if d = ':' then
                      match parseVal fuel r2 with
                      | some (v, r3) =>
                          match skipWs r3 with
                          | [] => none
                          | e :: r4 =>
                              if e = ',' then
                                match parseMembers fuel r4 with
                                | some (ms, r5) => some ((String.mk kcs, v) :: ms, r5)
                                | none => none
                              else if e = rbrace then some ([(String.mk kcs, v)], r4)
                              else none
                      | none => none
                    else none
            | none => none
          else none
end

mutual
/-- Fuel sufficient to parse a value: one unit per object plus one per
member. -/
def jsize : JValue → Nat
  | JValue.str _ => 1
  | JValue.obj es => 1 + jsizeMembers es

/-- `jsize` over an object's members. -/
def jsizeMembers : List (String × JValue) → Nat
  | [] => 0
  | (_, v) :: rest => 1 + jsize v + jsizeMembers rest
end

/-- Modelled from the spec: re-parsing the written document, with fuel
taken from the document's length. -/
def parseDoc (s : String) : Option JValue :=
  match parseVal (s.data.length + 1) s.data with
  | some (v, r) => if skipWs r = [] then some v else none
  | none => none

/-- C1: running the driver on the `project` tree with ignore list
`["node_modules"]` writes exactly the document
`{"project": {"src": {"utils": {}}}}`. -/
theorem c1_project_scenario :
    (mainRun projectEnv).written =
      some ("folder_hierarchy.json",
        JValue.obj [("project",
          JValue.obj [("src", JValue.obj [("utils", JValue.obj [])])])]) := by
  simp [mainRun, projectEnv, projectTree, get_folder_hierarchy, build, buildChildren, isDir,
    startsWithDot]

/-- `buildChildren` is the filter of the list comprehension followed by
the recursing `for` loop. -/
theorem buildChildren_eq_filter_map (ig : List String) (es : List (String × FS)) :
    buildChildren ig es =
      (es.filter (keepEntry ig)).map (fun e => (e.1, build ig e.2)) := by
  induction es with
  | nil => simp [buildChildren]
  | cons e rest ih =>
      obtain ⟨n, c⟩ := e
      by_cases h : (!startsWithDot n && isDir c && !ig.contains n) = true
      · rw [buildChildren, if_pos h]
        rw [List.filter_cons_of_pos (by simpa [keepEntry] using h)]
        simp [ih]
      · rw [buildChildren, if_neg h]
        rw [List.filter_cons_of_neg (by simpa [keepEntry] using h)]
        exact ih

mutual
/-- Every key of the built hierarchy is either the sentinel key
`"error"` or the name of a visible, non-ignored directory entry of the
scanned tree. -/
theorem build_key_mem : ∀ (ig : List String) (fs : FS) (k : String),
    k ∈ allKeys (build ig fs) →
    k = "error" ∨
      (startsWithDot k = false ∧ ig.contains k = false ∧ hasDirNamed k fs = true)
  | ig, FS.file, k, hk => by
      left; simpa [build, allKeys, allKeysEntries] using hk
  | ig, FS.dirPermDenied, k, hk => by
      left; simpa [build, allKeys, allKeysEntries] using hk
  | ig, FS.dirErr m, k, hk => by
      left; simpa [build, allKeys, allKeysEntries] using hk
  | ig, FS.dirOk entries, k, hk => by
      rw [build, allKeys] at hk
      rcases buildChildren_key_mem ig entries k hk with h | ⟨h1, h2, h3⟩
      · exact Or.inl h
      · exact Or.inr ⟨h1, h2, by rw [hasDirNamed]; exact h3⟩

/-- `build_key_mem`, phrased over one directory listing. -/
theorem buildChildren_key_mem : ∀ (ig : List String) (es : List (String × FS)) (k : String),
    k ∈ allKeysEntries (buildChildren ig es) →
    k = "error" ∨
      (startsWithDot k = false ∧ ig.contains k = false ∧ hasDirNamedIn k es = true)
  | ig, [], k, hk => by simp [buildChildren, allKeysEntries] at hk
  | ig, (n, c) :: rest, k, hk => by
      by_cases h : (!startsWithDot n && isDir c && !ig.contains n) = true
      · rw [buildChildren, if_pos h] at hk
        rw [allKeysEntries] at hk
        rcases List.mem_cons.mp hk with rfl | hk'
        · right
          simp only [Bool.and_eq_true, Bool.not_eq_true'] at h
          exact ⟨h.1.1, h.2, by simp [hasDirNamedIn, h.1.2]⟩
        · rcases List.mem_append.mp hk' with hk2 | hk2
          · rcases build_key_mem ig c k hk2 with h1 | ⟨h1, h2, h3⟩
            · exact Or.inl h1
            · exact Or.inr ⟨h1, h2, by simp [hasDirNamedIn, h3]⟩
          · rcases buildChildren_key_mem ig rest k hk2 with h1 | ⟨h1, h2, h3⟩
            · exact Or.inl h1
            · exact Or.inr ⟨h1, h2, by simp [hasDirNamedIn, h3]⟩
      · rw [buildChildren, if_neg h] at hk
        rcases buildChildren_key_mem ig rest k hk with h1 | ⟨h1, h2, h3⟩
        · exact Or.inl h1
        · exact Or.inr ⟨h1, h2, by simp [hasDirNamedIn, h3]⟩
end

/-- C10: omitting the ignore argument (Python `None`) gives the same
result as passing the empty list. -/
theorem c10_none_ignore_eq_empty (fs : FS) :
    get_folder_hierarchy fs none = get_folder_hierarchy fs (some []) := rfl

/-- C3: the builder is total and always returns a dictionary: every
listing failure is captured locally and encoded as a sentinel object, so
no thrown failure reaches the caller. -/
theorem c3_builder_always_returns_mapping (fs : FS) (ig : Option (List String)) :
    ∃ entries, get_folder_hierarchy fs ig = JValue.obj entries := by
  cases fs with
  | file => exact ⟨_, by rw [get_folder_hierarchy, build]⟩
  | dirOk es => exact ⟨_, by rw [get_folder_hierarchy, build]⟩
  | dirPermDenied => exact ⟨_, by rw [get_folder_hierarchy, build]⟩
  | dirErr m => exact ⟨_, by rw [get_folder_hierarchy, build]⟩

/-- C2: a directory whose listing raises `PermissionError` becomes
exactly the terminal sentinel `{"error": "Permission denied"}` (no
children, no recursion below it); any other listing failure becomes
`{"error": message}`; and a readable directory's output maps each
retained child independently through the builder, so failures at one
node leave sibling and ancestor traversal untouched. -/
theorem c2_listing_failure_sentinels (ig : Option (List String)) (msg : String)
    (es : List (String × FS)) :
    get_folder_hierarchy FS.dirPermDenied ig
        = JValue.obj [("error", JValue.str "Permission denied")] ∧
    get_folder_hierarchy (FS.dirErr msg) ig
        = JValue.obj [("error", JValue.str msg)] ∧
    get_folder_hierarchy (FS.dirOk es) ig
        = JValue.obj ((es.filter (keepEntry (ig.getD []))).map
            (fun e => (e.1, build (ig.getD []) e.2))) := by
  refine ⟨by rw [get_folder_hierarchy, build], by rw [get_folder_hierarchy, build], ?_⟩
  rw [get_folder_hierarchy, build, buildChildren_eq_filter_map]

/-- C4: an entry whose name starts with a dot never appears as a key
anywhere in the produced hierarchy, whatever the ignore configuration. -/
theorem c4_hidden_entries_never_appear (fs : FS) (ig : Option (List String)) (k : String)
    (hk : startsWithDot k = true) :
    k ∉ allKeys (get_folder_hierarchy fs ig) := by
  intro hmem
  rcases build_key_mem (ig.getD []) fs k hmem with rfl | ⟨h1, _, _⟩
  · exact absurd hk (by decide)
  · rw [h1] at hk
    exact Bool.false_ne_true hk

theorem c4_hidden_entries_never_appear_witness :
    startsWithDot ".cache" = true ∧
      ".cache" ∉ allKeys (get_folder_hierarchy projectTree (some ["node_modules"])) :=
  ⟨by decide, c4_hidden_entries_never_appear projectTree (some ["node_modules"]) ".cache" (by decide)⟩

/-- C5 (counterexample): the claim that an ignored name never appears as
a key fails for the name `"error"`: with ignore set `["error"]` and a
child directory whose listing is permission-denied, the document still
contains the sentinel key `"error"`. -/
theorem c5_ignored_name_counterexample :
    "error" ∈ (["error"] : List String) ∧
      "error" ∈ allKeys (get_folder_hierarchy permTree (some ["error"])) := by
  constructor
  · exact List.mem_singleton.mpr rfl
  · rw [get_folder_hierarchy, permTree, build, buildChildren, if_pos (by decide),
      buildChildren, build]
    simp [allKeys, allKeysEntries]

/-- C5 (amended): for every name in the ignore set other than the
literal string `"error"` (which can still appear as the sentinel key of
an error node), no key with that exact name appears at any nesting level
of the produced hierarchy; membership is tested by exact name match at
every traversal level, not by path. -/
theorem c5_ignored_names_never_appear (fs : FS) (ig : Option (List String)) (k : String)
    (hmem : k ∈ ig.getD []) (hne : k ≠ "error") :
    k ∉ allKeys (get_folder_hierarchy fs ig) := by
  intro hk
  rcases build_key_mem (ig.getD []) fs k hk with rfl | ⟨_, h2, _⟩
  · exact hne rfl
  · rw [List.contains_eq_any_beq] at h2
    have : ((ig.getD []).any fun x => k == x) = true :=
      List.any_eq_true.mpr ⟨k, hmem, by simp⟩
    rw [this] at h2
    exact absurd h2 (by simp)

theorem c5_ignored_names_never_appear_witness :
    "node_modules" ∈ (some ["node_modules"] : Option (List String)).getD [] ∧
      "node_modules" ∉ allKeys (get_folder_hierarchy projectTree (some ["node_modules"])) :=
  ⟨List.mem_singleton.mpr rfl,
    c5_ignored_names_never_appear projectTree (some ["node_modules"]) "node_modules"
      (List.mem_singleton.mpr rfl) (by decide)⟩

/-- C6: every key anywhere in the produced hierarchy is either the
sentinel key `"error"` or the name of a directory entry of the scanned
tree — so a filesystem entry that is not a directory never contributes a
key at any level. -/
theorem c6_files_never_appear (fs : FS) (ig : Option (List String)) (k : String)
    (hk : k ∈ allKeys (get_folder_hierarchy fs ig)) :
    k = "error" ∨ hasDirNamed k fs = true := by
  rcases build_key_mem (ig.getD []) fs k hk with h | ⟨_, _, h3⟩
  · exact Or.inl h
  · exact Or.inr h3

theorem c6_files_never_appear_witness :
    "src" ∈ allKeys (get_folder_hierarchy projectTree (some ["node_modules"])) ∧
      ("src" = "error" ∨ hasDirNamed "src" projectTree = true) := by
  refine ⟨?_, c6_files_never_appear projectTree (some ["node_modules"]) "src" ?_⟩ <;>
  · rw [get_folder_hierarchy, projectTree, build, buildChildren, if_pos (by decide),
      buildChildren, if_neg (by decide), buildChildren, if_neg (by decide), buildChildren]
    simp [allKeys, allKeysEntries]

/-- C7: when the root path does not exist the driver prints the
"does not exist" message and writes nothing, whatever `isdir` would say
(the existence check runs first); when the root exists but is not a
directory it prints the "is not a directory" message and writes nothing.
Both exits return cleanly: the result is an ordinary value. -/
theorem c7_validation_failures (env : DriverEnv) :
    (env.path_exists = false →
      mainRun env =
        { messages := ["Error: Path '" ++ env.start_path ++ "' does not exist."]
          written := none }) ∧
    (env.path_exists = true → env.path_is_dir = false →
      mainRun env =
        { messages := ["Error: Path '" ++ env.start_path ++ "' is not a directory."]
          written := none }) := by
  constructor
  · intro h
    rw [mainRun, h]
    rfl
  · intro h1 h2
    rw [mainRun, h1, h2]
    rfl

theorem c7_validation_failures_witness :
    (mainRun missingEnv).written = none ∧
      (mainRun missingEnv).messages = ["Error: Path 'no_such_path' does not exist."] ∧
      (mainRun fileEnv).written = none ∧
      (mainRun fileEnv).messages = ["Error: Path 'README.md' is not a directory."] := by
  have h1 := (c7_validation_failures missingEnv).1 rfl
  have h2 := (c7_validation_failures fileEnv).2 rfl rfl
  rw [h1, h2]
  exact ⟨rfl, rfl, rfl, rfl⟩

/-- C8: on a validated run the written document has exactly one
top-level key — the base name of the root — whose value is the builder's
result for the root with the configured ignore list. -/
theorem c8_document_wraps_root (env : DriverEnv)
    (hex : env.path_exists = true) (hdir : env.path_is_dir = true) :
    (mainRun env).written =
      some (env.output_file,
        JValue.obj [(env.basename, get_folder_hierarchy env.fs (some env.ignore_folders))]) := by
  rw [mainRun, hex, hdir]
  simp

theorem c8_document_wraps_root_witness :
    (mainRun projectEnv).written =
      some ("folder_hierarchy.json",
        JValue.obj [("project", get_folder_hierarchy projectTree (some ["node_modules"]))]) :=
  c8_document_wraps_root projectEnv rfl rfl

/-! ### Round-trip lemmas for the document codec -/

/-- A hexadecimal digit emitted by the serializer reads back as its
value. -/
theorem hexDigitVal_hexDigitChar (n : Nat) (h : n < 16) :
    hexDigitVal (hexDigitChar n) = some n := by
  interval_cases n <;> decide

/-- `parseStrBody` undoes `escChar` one character at a time. -/
theorem parseStrBody_escChar (c : Char) (t : List Char) :
    parseStrBody (escChar c ++ t) =
      match parseStrBody t with
      | some (s, r) => some (c :: s, r)
      | none => none := by
  rw [escChar]
  by_cases h1 : c = quoteChar
  · subst h1; rw [if_pos rfl]
    rw [parseStrBody.eq_def]; simp [unescChar, quoteChar, bslash]
  · rw [if_neg h1]
    by_cases h2 : c = bslash
    · subst h2; rw [if_pos rfl]
      rw [parseStrBody.eq_def]; simp [unescChar, quoteChar, bslash]
    · rw [if_neg h2]
      by_cases h3 : c = '\x08'
      · subst h3; rw [if_pos rfl]
        rw [parseStrBody.eq_def]; simp [unescChar, quoteChar, bslash]
      · rw [if_neg h3]
        by_cases h4 : c = '\t'
        · subst h4; rw [if_pos rfl]
          rw [parseStrBody.eq_def]; simp [unescChar, quoteChar, bslash]
        · rw [if_neg h4]
          by_cases h5 : c = '\n'
          · subst h5; rw [if_pos rfl]
            rw [parseStrBody.eq_def]; simp [unescChar, quoteChar, bslash]
          · rw [if_neg h5]
            by_cases h6 : c = '\x0c'
            · subst h6; rw [if_pos rfl]
              rw [parseStrBody.eq_def]; simp [unescChar, quoteChar, bslash]
            · rw [if_neg h6]
              by_cases h7 : c = '\r'
              · subst h7; rw [if_pos rfl]
                rw [parseStrBody.eq_def]; simp [unescChar, quoteChar, bslash]
              · rw [if_neg h7]
                by_cases h8 : c.toNat < 32
                · rw [if_pos h8]
                  have hd1 : hexDigitVal (hexDigitChar (c.toNat / 16)) = some (c.toNat / 16) :=
                    hexDigitVal_hexDigitChar _ (by omega)
                  have hd2 : hexDigitVal (hexDigitChar (c.toNat % 16)) = some (c.toNat % 16) :=
                    hexDigitVal_hexDigitChar _ (Nat.mod_lt _ (by omega))
                  have harith : c.toNat / 16 * 16 + c.toNat % 16 = c.toNat := by omega
                  have h0 : hexDigitVal '0' = some 0 := by decide
                  rw [parseStrBody.eq_def]
                  simp [quoteChar, bslash, h0, hd1, hd2, harith, Char.ofNat_toNat]
                · rw [if_neg h8]
                  simp only [List.cons_append, List.nil_append]
                  rw [parseStrBody.eq_def]
                  simp [h1, h2]

/-- Parsing an escaped string body stops exactly at the closing quote
and returns the original characters. -/
theorem parseStrBody_escString (s : List Char) (rest : List Char) :
    parseStrBody (escString s ++ (quoteChar :: rest)) = some (s, rest) := by
  induction s with
  | nil =>
      rw [escString, List.nil_append, parseStrBody.eq_def]
      simp
  | cons c cs ih =>
      rw [escString, List.append_assoc, parseStrBody_escChar, ih]

/-- `String.mk` is a left inverse of `String.data`. -/
theorem string_mk_data (s : String) : String.mk s.data = s := by
  cases s
  rfl

/-- Dropping whitespace ignores a leading whitespace character. -/
theorem skipWs_cons_ws (c : Char) (s : List Char) (h : isWsChar c = true) :
    skipWs (c :: s) = skipWs s := by
  rw [skipWs, if_pos h]

/-- Dropping whitespace stops at a non-whitespace character. -/
theorem skipWs_cons_not (c : Char) (s : List Char) (h : isWsChar c = false) :
    skipWs (c :: s) = c :: s := by
  rw [skipWs, if_neg (by rw [h]; exact Bool.false_ne_true)]

/-- Dropping whitespace ignores a whitespace prefix. -/
theorem skipWs_ws_append (pre s : List Char) (h : ∀ c ∈ pre, isWsChar c = true) :
    skipWs (pre ++ s) = skipWs s := by
  induction pre with
  | nil => rfl
  | cons c cs ih =>
      rw [List.cons_append, skipWs_cons_ws _ _ (h c (by simp))]
      exact ih (fun d hd => h d (List.mem_cons_of_mem _ hd))

/-- Dropping whitespace ignores the serializer's indentation. -/
theorem skipWs_replicate (w : Nat) (s : List Char) :
    skipWs (List.replicate w ' ' ++ s) = skipWs s :=
  skipWs_ws_append _ _ (fun c hc => by rw [List.eq_of_mem_replicate hc]; rfl)

/-- Dropping whitespace is idempotent. -/
theorem skipWs_idem (s : List Char) : skipWs (skipWs s) = skipWs s := by
  induction s with
  | nil => rfl
  | cons c cs ih =>
      by_cases h : isWsChar c = true
      · rw [skipWs_cons_ws _ _ h]; exact ih
      · rw [skipWs_cons_not _ _ (by revert h; cases isWsChar c <;> simp)]
        rw [skipWs_cons_not _ _ (by revert h; cases isWsChar c <;> simp)]

/-- The value parser already skips whitespace, so skipping it first
changes nothing. -/
theorem parseVal_skipWs (f : Nat) (s : List Char) :
    parseVal f (skipWs s) = parseVal f s := by
  cases f with
  | zero => rfl
  | succ n =>
      simp only [parseVal, skipWs_idem]

/-- The member parser already skips whitespace, so skipping it first
changes nothing. -/
theorem parseMembers_skipWs (f : Nat) (s : List Char) :
    parseMembers f (skipWs s) = parseMembers f s := by
  cases f with
  | zero => rfl
  | succ n =>
      simp only [parseMembers, skipWs_idem]

/-- A whitespace prefix does not change what the value parser reads. -/
theorem parseVal_ws_append (f : Nat) (pre s : List Char)
    (h : ∀ c ∈ pre, isWsChar c = true) :
    parseVal f (pre ++ s) = parseVal f s := by
  rw [← parseVal_skipWs f (pre ++ s), skipWs_ws_append pre s h, parseVal_skipWs]

/-- A whitespace prefix does not change what the member parser reads. -/
theorem parseMembers_ws_append (f : Nat) (pre s : List Char)
    (h : ∀ c ∈ pre, isWsChar c = true) :
    parseMembers f (pre ++ s) = parseMembers f s := by
  rw [← parseMembers_skipWs f (pre ++ s), skipWs_ws_append pre s h, parseMembers_skipWs]

/-- Parsing one serialized member: the indentation, the quoted key, the
`": "` separator and the value are consumed, leaving the member
terminator (`","` or the closing brace) to the caller's continuation. -/
theorem parseMembers_step (f : Nat) (k : String) (v : JValue) (w : Nat) (tail : List Char)
    (hv : parseVal f (serValue (w + 2) v ++ tail) = some (v, tail)) :
    parseMembers (f + 1)
      (List.replicate (w + 2) ' ' ++ (serStr k ++ ':' :: ' ' :: (serValue (w + 2) v ++ tail))) =
      match skipWs tail with
      | [] => none
      | e :: r4 =>
          if e = ',' then
            match parseMembers f r4 with
            | some (ms, r5) => some ((k, v) :: ms, r5)
            | none => none
          else if e = rbrace then some ([(k, v)], r4)
          else none := by
  have hws : ∀ (z : List Char),
      parseMembers (f + 1) (List.replicate (w + 2) ' ' ++ z) = parseMembers (f + 1) z :=
    fun z => parseMembers_ws_append _ _ _ (fun c hc => by rw [List.eq_of_mem_replicate hc]; rfl)
  rw [serStr]
  simp only [List.append_assoc, List.cons_append, List.singleton_append]
  rw [hws]
  simp only [parseMembers]
  rw [skipWs_cons_not _ _ (by decide)]
  have hstr := parseStrBody_escString k.data (':' :: ' ' :: (serValue (w + 2) v ++ tail))
  have hcolon : skipWs (':' :: ' ' :: (serValue (w + 2) v ++ tail)) =
      ':' :: ' ' :: (serValue (w + 2) v ++ tail) := skipWs_cons_not _ _ (by decide)
  have hval : parseVal f (' ' :: (serValue (w + 2) v ++ tail)) = some (v, tail) := by
    have hw := parseVal_ws_append f [' '] (serValue (w + 2) v ++ tail)
      (fun c hc => by rw [List.mem_singleton.mp hc]; rfl)
    rw [List.singleton_append] at hw
    rw [hw, hv]
  simp [hstr, hcolon, hval, string_mk_data]

/-- A serialized non-empty member list starts with the first member's
indentation and opening quote. -/
theorem serMembers_head (w : Nat) (k : String) (v : JValue) (es : List (String × JValue)) :
    ∃ t, serMembers w ((k, v) :: es) = List.replicate (w + 2) ' ' ++ (quoteChar :: t) := by
  cases es with
  | nil =>
      refine ⟨(escString k.data ++ [quoteChar]) ++ ((':' :: ' ' :: serValue (w + 2) v)
        ++ ('\n' :: (List.replicate w ' ' ++ [rbrace]))), ?_⟩
      rw [serMembers, serStr]
      simp [List.append_assoc]
  | cons e2 es2 =>
      refine ⟨(escString k.data ++ [quoteChar]) ++ ((':' :: ' ' :: serValue (w + 2) v)
        ++ (',' :: '\n' :: serMembers w (e2 :: es2))), ?_⟩
      rw [serMembers]
      · rw [serStr]
        simp [List.append_assoc]
      · exact fun h => List.noConfusion h

mutual
/-- Parsing a serialized value at any enclosing indentation recovers
exactly that value and leaves the trailing input untouched, given fuel
at least `jsize`. -/
theorem parseVal_ser : ∀ (v : JValue) (w fuel : Nat) (rest : List Char),
    jsize v ≤ fuel → parseVal fuel (serValue w v ++ rest) = some (v, rest)
  | JValue.str s, w, fuel, rest, h => by
      rw [jsize] at h
      obtain ⟨f, rfl⟩ : ∃ f, fuel = f + 1 := ⟨fuel - 1, by omega⟩
      rw [serValue, serStr, List.cons_append, List.append_assoc, List.singleton_append]
      simp only [parseVal]
      rw [skipWs_cons_not _ _ (by decide)]
      simp [parseStrBody_escString, string_mk_data]
  | JValue.obj [], w, fuel, rest, h => by
      rw [jsize] at h
      obtain ⟨f, rfl⟩ : ∃ f, fuel = f + 1 := ⟨fuel - 1, by omega⟩
      rw [serValue]
      simp [parseVal, skipWs, isWsChar, lbrace, rbrace, quoteChar]
  | JValue.obj ((k, v) :: es), w, fuel, rest, h => by
      rw [jsize] at h
      obtain ⟨f, rfl⟩ : ∃ f, fuel = f + 1 := ⟨fuel - 1, by omega⟩
      obtain ⟨t, ht⟩ := serMembers_head w k v es
      have hmem : parseMembers f (serMembers w ((k, v) :: es) ++ rest) = some ((k, v) :: es, rest) :=
        parseMembers_ser es k v w f rest (by omega)
      have hskip : skipWs (serMembers w ((k, v) :: es) ++ rest) = quoteChar :: (t ++ rest) := by
        rw [ht, List.append_assoc, skipWs_replicate, List.cons_append,
          skipWs_cons_not _ _ (by decide)]
      have hpm : parseMembers f (quoteChar :: (t ++ rest)) = some ((k, v) :: es, rest) := by
        rw [← hskip, parseMembers_skipWs]
        exact hmem
      have hskip2 : skipWs ('\n' :: (serMembers w ((k, v) :: es) ++ rest)) =
          quoteChar :: (t ++ rest) := by
        rw [skipWs_cons_ws _ _ (by decide), hskip]
      simp only [quoteChar] at hpm hskip2
      rw [serValue]
      simp only [List.cons_append]
      simp only [parseVal]
      rw [skipWs_cons_not _ _ (by decide)]
      simp [hskip2, hpm, lbrace, quoteChar, rbrace]

/-- Parsing a serialized non-empty member list recovers the members and
consumes the closing brace. -/
theorem parseMembers_ser : ∀ (es : List (String × JValue)) (k : String) (v : JValue)
    (w fuel : Nat) (rest : List Char),
    jsizeMembers ((k, v) :: es) ≤ fuel →
    parseMembers fuel (serMembers w ((k, v) :: es) ++ rest) = some ((k, v) :: es, rest)
  | [], k, v, w, fuel, rest, h => by
      rw [jsizeMembers, jsizeMembers] at h
      obtain ⟨f, rfl⟩ : ∃ f, fuel = f + 1 := ⟨fuel - 1, by omega⟩
      have hv : parseVal f
          (serValue (w + 2) v ++ ('\n' :: (List.replicate w ' ' ++ (rbrace :: rest)))) =
          some (v, '\n' :: (List.replicate w ' ' ++ (rbrace :: rest))) :=
        parseVal_ser v (w + 2) f _ (by omega)
      rw [serMembers]
      simp only [List.append_assoc, List.cons_append, List.singleton_append, List.nil_append]
      rw [parseMembers_step f k v w _ hv]
      have hskip : skipWs ('\n' :: (List.replicate w ' ' ++ (rbrace :: rest))) = rbrace :: rest := by
        rw [skipWs_cons_ws _ _ (by decide), skipWs_replicate, skipWs_cons_not _ _ (by decide)]
      rw [hskip]
      simp [rbrace]
  | (k2, v2) :: es2, k, v, w, fuel, rest, h => by
      rw [jsizeMembers] at h
      obtain ⟨f, rfl⟩ : ∃ f, fuel = f + 1 := ⟨fuel - 1, by omega⟩
      have hv : parseVal f
          (serValue (w + 2) v ++ (',' :: '\n' :: (serMembers w ((k2, v2) :: es2) ++ rest))) =
          some (v, ',' :: '\n' :: (serMembers w ((k2, v2) :: es2) ++ rest)) :=
        parseVal_ser v (w + 2) f _ (by omega)
      have hrec : parseMembers f (serMembers w ((k2, v2) :: es2) ++ rest) =
          some ((k2, v2) :: es2, rest) :=
        parseMembers_ser es2 k2 v2 w f rest (by omega)
      rw [serMembers]
      · simp only [List.append_assoc, List.cons_append, List.singleton_append, List.nil_append]
        rw [parseMembers_step f k v w _ hv]
        have hskip : skipWs (',' :: '\n' :: (serMembers w ((k2, v2) :: es2) ++ rest))
            = ',' :: '\n' :: (serMembers w ((k2, v2) :: es2) ++ rest) :=
          skipWs_cons_not _ _ (by decide)
        rw [hskip]
        have hws : parseMembers f ('\n' :: (serMembers w ((k2, v2) :: es2) ++ rest))
            = parseMembers f (serMembers w ((k2, v2) :: es2) ++ rest) := by
          have hw := parseMembers_ws_append f ['\n'] (serMembers w ((k2, v2) :: es2) ++ rest)
            (fun c hc => by rw [List.mem_singleton.mp hc]; rfl)
          rw [List.singleton_append] at hw
          exact hw
        simp only [hws, hrec]
        rw [if_pos trivial]
      · exact fun hh => List.noConfusion hh
end

mutual
/-- The fuel `jsize` never exceeds the serialized length. -/
theorem jsize_le_length : ∀ (v : JValue) (w : Nat), jsize v ≤ (serValue w v).length
  | JValue.str s, w => by
      rw [jsize, serValue, serStr]
      simp only [List.length_cons, List.length_append]
      omega
  | JValue.obj [], w => by
      rw [jsize, jsizeMembers, serValue]
      simp
  | JValue.obj ((k, v) :: es), w => by
      rw [jsize, serValue]
      have hm := jsizeMembers_le_length es k v w
      simp only [List.length_cons]
      omega
termination_by v w => sizeOf v

/-- `jsizeMembers` never exceeds the serialized length of the member
list. -/
theorem jsizeMembers_le_length : ∀ (es : List (String × JValue)) (k : String) (v : JValue)
    (w : Nat), jsizeMembers ((k, v) :: es) ≤ (serMembers w ((k, v) :: es)).length
  | [], k, v, w => by
      rw [jsizeMembers, jsizeMembers, serMembers]
      have hv := jsize_le_length v (w + 2)
      simp only [List.length_append, List.length_cons, List.length_replicate]
      omega
  | (k2, v2) :: es2, k, v, w => by
      rw [jsizeMembers, serMembers]
      · have hv := jsize_le_length v (w + 2)
        have hm := jsizeMembers_le_length es2 k2 v2 w
        simp only [List.length_append, List.length_cons, List.length_replicate]
        omega
      · exact fun hh => List.noConfusion hh
termination_by es k v w => sizeOf es + sizeOf v
end

/-- C9: re-parsing the serialized document is the identity on every
hierarchy value — in particular every directory-name key, non-ASCII
characters included, comes back identical to the original. -/
theorem c9_serialize_parse_roundtrip (v : JValue) :
    parseDoc (serializeDoc v) = some v := by
  rw [parseDoc, serializeDoc]
  have hd : (String.mk (serValue 0 v)).data = serValue 0 v := rfl
  rw [hd]
  have hfuel : jsize v ≤ (serValue 0 v).length + 1 :=
    le_trans (jsize_le_length v 0) (by omega)
  have h := parseVal_ser v 0 ((serValue 0 v).length + 1) [] hfuel
  rw [List.append_nil] at h
  rw [h]
  simp [skipWs]
